import Mathlib

/-!
# Shallow embedding of PedersenVSS.py

Verification development for the CryptoWill repository (file
src/PedersenVSS.py).  Python unbounded integers are modelled as Lean
Int.  For every division or remainder in the source the divisor is a
positive integer (the prime p, p - 1, or a positive first argument of
extended_gcd), and on positive divisors Lean's Int.ediv / Int.emod
agree with Python's floor division and remainder, so the Lean operators
are used directly.  Calls to the random source secrets.randbelow are
modelled by passing the list of drawn values explicitly.  A raised
ValueError is modelled with Except: the two raise sites of the core
correspond to the two constructors of VSSError, following the error
taxonomy of the specification (DomainError for a missing modular
inverse, InsufficientSharesError for too few shares).
-/

namespace PedersenVSS

/-- Errors raised by the core: the ValueError of mod_inverse
("Modular inverse does not exist") and the ValueError of
lagrange_interpolation ("Not enough shares for reconstruction"). -/
inductive VSSError where
  | domainError : VSSError
  | insufficientSharesError : VSSError
deriving DecidableEq, Repr

/-- The generator self.g = 2 hard-coded in PedersenVSS.__init__. -/
def gGen : Int := 2

/-- The generator self.h = 3 hard-coded in PedersenVSS.__init__. -/
def hGen : Int := 3

/-- The inner recursion of PedersenVSS.mod_inverse.  The source
function extended_gcd(a, b) recurses on extended_gcd(b % a, a); it is
only applied to a first argument that is a non-negative residue
(a % m with m > 0), which the Nat first argument records. -/
def extended_gcd (a : Nat) (b : Int) : Int × Int × Int :=
  if h : a = 0 then (b, 0, 1)
  else
    let r := extended_gcd (b % (a : Int)).toNat a
    (r.1, r.2.2 - (b / (a : Int)) * r.2.1, r.2.1)
termination_by a
decreasing_by
  have ha : (0 : Int) < (a : Int) := by exact_mod_cast Nat.pos_of_ne_zero h
  have h1 := Int.emod_lt_of_pos b ha
  have h2 := Int.emod_nonneg b (by omega : (a : Int) ≠ 0)
  omega

/-- PedersenVSS.mod_inverse: extended Euclidean algorithm; raises
(domainError) when the gcd is not 1, otherwise returns
(x % m + m) % m. -/
def mod_inverse (a m : Int) : Except VSSError Int :=
  let r := extended_gcd ((a % m).toNat) m
  if r.1 ≠ 1 then .error .domainError
  else .ok ((r.2.1 % m + m) % m)

/-- PedersenVSS.generate_polynomial: coefficient list starting with the
secret followed by threshold - 1 draws of secrets.randbelow(p); the
draws are supplied explicitly in rands. -/
def generate_polynomial (secret : Int) (threshold : Nat) (rands : List Int) : List Int :=
  secret :: rands.take (threshold - 1)

/-- PedersenVSS.evaluate_polynomial: Horner evaluation, folding
result = (result * x + coeff) % p over reversed(coeffs). -/
def evaluate_polynomial (p : Int) (coeffs : List Int) (x : Int) : Int :=
  coeffs.reverse.foldl (fun result coeff => (result * x + coeff) % p) 0

/-- The while loop of PedersenVSS.pow_mod, with the current exponent as
first recursion argument. -/
def powModLoop (m : Int) (e : Nat) (result base : Int) : Int :=
  if h : e = 0 then result
  else
    powModLoop m (e / 2) (if e % 2 = 1 then (result * base) % m else result)
      ((base * base) % m)
termination_by e
decreasing_by
  exact Nat.div_lt_self (Nat.pos_of_ne_zero h) one_lt_two

/-- PedersenVSS.pow_mod: result starts at 1, base is reduced mod m, and
the loop body runs while exp > 0 (for a negative exponent the Python
loop body never runs, matching Int.toNat). -/
def pow_mod (base exp m : Int) : Int :=
  powModLoop m exp.toNat 1 (base % m)

/-- PedersenVSS.generate_shares_and_commitments: shares are
(f(i), g(i)) for i = 1..num_shares and commitments are
g^(f_j) * h^(g_j) mod p for j = 0..threshold-1; the random draws of the
two polynomials are supplied in f_rands and g_rands. -/
def generate_shares_and_commitments (p secret : Int) (threshold num_shares : Nat)
    (f_rands g_rands : List Int) :
    List (Int × Int) × List Int × List Int :=
  let f_coeffs := generate_polynomial secret threshold f_rands
  let g_coeffs := generate_polynomial 0 threshold g_rands
  let shares := (List.range num_shares).map (fun (i : Nat) =>
    (evaluate_polynomial p f_coeffs ((i : Int) + 1),
     evaluate_polynomial p g_coeffs ((i : Int) + 1)))
  let commitments := (List.range threshold).map (fun (j : Nat) =>
    (pow_mod gGen (f_coeffs.getD j 0) p * pow_mod hGen (g_coeffs.getD j 0) p) % p)
  (shares, commitments, f_coeffs)

/-- PedersenVSS.verify_share: compares g^(f_i) * h^(g_i) mod p with the
product over j of commitments[j] ^ (index^j mod (p-1)) mod p. -/
def verify_share (p : Int) (share_index : Int) (share : Int × Int)
    (commitments : List Int) (threshold : Nat) : Bool :=
  let left := (pow_mod gGen share.1 p * pow_mod hGen share.2 p) % p
  let right := (List.range threshold).foldl
    (fun right j =>
      (right * pow_mod (commitments.getD j 0) (pow_mod share_index (j : Int) (p - 1)) p) % p)
    1
  left == right

/-- The numerator loop of PedersenVSS.lagrange_interpolation for the
entry at position i: product of (-x_j) % p over the other positions. -/
def lagrangeNumer (p : Int) (sel : List (Int × Int × Int)) (i : Nat) : Int :=
  sel.enum.foldl (fun acc jx => if jx.1 ≠ i then (acc * (-(jx.2.1))) % p else acc) 1

/-- The denominator loop of PedersenVSS.lagrange_interpolation for the
entry at position i with index xi: product of (xi - x_j) % p over the
other positions. -/
def lagrangeDenom (p : Int) (sel : List (Int × Int × Int)) (i : Nat) (xi : Int) : Int :=
  sel.enum.foldl (fun acc jx => if jx.1 ≠ i then (acc * (xi - jx.2.1)) % p else acc) 1

/-- The outer loop of PedersenVSS.lagrange_interpolation over the
enumerated selected shares, accumulating the running secret. -/
def lagrangeSum (p : Int) (sel : List (Int × Int × Int)) :
    List (Nat × Int × Int × Int) → Int → Except VSSError Int
  | [], acc => .ok acc
  | (i, xi, fi, _) :: rest, acc =>
    match mod_inverse (lagrangeDenom p sel i xi) p with
    | .error e => .error e
    | .ok inv =>
      lagrangeSum p sel rest ((acc + fi * ((lagrangeNumer p sel i * inv) % p)) % p)

/-- PedersenVSS.lagrange_interpolation: raises when fewer than threshold
shares are supplied, otherwise interpolates at 0 from the first
threshold shares. -/
def lagrange_interpolation (p : Int) (shares : List (Int × Int × Int))
    (threshold : Nat) : Except VSSError Int :=
  if shares.length < threshold then .error .insufficientSharesError
  else
    let sel := shares.take threshold
    lagrangeSum p sel sel.enum 0

end PedersenVSS

namespace CryptoWill

open PedersenVSS

/-- The fields of the will_data dictionary that
CryptoWill.reconstruct_secret reads. -/
structure WillData where
  threshold : Nat
  secret_hash : Int

/-- CryptoWill.reconstruct_secret: returns (False, 0) when fewer than
threshold shares are revealed, otherwise reconstructs and compares the
hash of the result with the stored hash.  hashlib.sha256 is an external
library function; it is modelled by an arbitrary digest function
hashFn, which the short-circuit branch never calls. -/
def reconstruct_secret (p : Int) (hashFn : Int → Int) (will : WillData)
    (revealed : List (Int × Int × Int)) : Except VSSError (Bool × Int) :=
  if revealed.length < will.threshold then .ok (false, 0)
  else
    match lagrange_interpolation p revealed will.threshold with
    | .error e => .error e
    | .ok s => .ok (hashFn s == will.secret_hash, s)

end CryptoWill

/-! ## Modular-arithmetic helper lemmas -/

namespace PedersenVSS

theorem emod_mul_left (a b m : Int) : (a % m * b) % m = (a * b) % m := by
  conv_rhs => rw [Int.mul_emod]
  rw [Int.mul_emod (a % m) b, Int.emod_emod_of_dvd a dvd_rfl]

theorem emod_mul_right (a b m : Int) : (a * (b % m)) % m = (a * b) % m := by
  rw [mul_comm, emod_mul_left, mul_comm]

theorem emod_pow (a m : Int) (k : Nat) : (a % m) ^ k % m = a ^ k % m := by
  induction k with
  | zero => rfl
  | succ n ih =>
    rw [pow_succ, pow_succ, Int.mul_emod, ih, Int.emod_emod_of_dvd a dvd_rfl,
      ← Int.mul_emod]

theorem emod_mul_pow (a c m : Int) (k : Nat) :
    (a * (c % m) ^ k) % m = (a * c ^ k) % m := by
  rw [Int.mul_emod a ((c % m) ^ k) m, emod_pow, ← Int.mul_emod]

/-- The pow_mod loop computes (result * base ^ e) % m whenever it runs at
least once. -/
theorem powModLoop_eq (m : Int) :
    ∀ e : Nat, 0 < e → ∀ result base : Int,
      powModLoop m e result base = result * base ^ e % m := by
  intro e
  induction e using Nat.strong_induction_on with
  | _ e ih =>
    intro he result base
    rw [powModLoop, dif_neg (by omega)]
    by_cases h2 : e / 2 = 0
    · have he1 : e = 1 := by omega
      subst he1
      rw [powModLoop]
      norm_num
    · have hrec := ih (e / 2) (Nat.div_lt_self he one_lt_two) (Nat.pos_of_ne_zero h2)
      by_cases hodd : e % 2 = 1
      · rw [if_pos hodd, hrec, emod_mul_left, emod_mul_pow]
        have he2 : e = 2 * (e / 2) + 1 := by omega
        congr 1
        conv_rhs => rw [he2]
        rw [pow_succ, pow_mul]
        ring
      · rw [if_neg hodd, hrec, emod_mul_pow]
        have he2 : e = 2 * (e / 2) := by omega
        congr 1
        conv_rhs => rw [he2]
        rw [pow_mul]
        ring

/-- pow_mod computes base ^ exp % m, except in the degenerate case
exp ≤ 0 and m = 1 where it returns the unreduced initial value 1. -/
theorem pow_mod_eq (base exp m : Int) (hm : 0 < m) (h : 1 < m ∨ 0 < exp) :
    pow_mod base exp m = base ^ exp.toNat % m := by
  unfold pow_mod
  by_cases h0 : exp.toNat = 0
  · have hm1 : 1 < m := by
      rcases h with h | h
      · exact h
      · omega
    rw [h0, powModLoop]
    simp [Int.emod_eq_of_lt (by norm_num) hm1]
  · rw [powModLoop_eq m exp.toNat (Nat.pos_of_ne_zero h0), one_mul, emod_pow]

theorem pow_mod_eq_of_one_lt (base exp m : Int) (hm : 1 < m) :
    pow_mod base exp m = base ^ exp.toNat % m :=
  pow_mod_eq base exp m (by omega) (Or.inl hm)

theorem pow_mod_nonneg (base exp m : Int) (hm : 0 < m) (h : 1 < m ∨ 0 < exp) :
    0 ≤ pow_mod base exp m := by
  rw [pow_mod_eq base exp m hm h]
  exact Int.emod_nonneg _ (by omega)

theorem pow_mod_lt (base exp m : Int) (hm : 0 < m) (h : 1 < m ∨ 0 < exp) :
    pow_mod base exp m < m := by
  rw [pow_mod_eq base exp m hm h]
  exact Int.emod_lt_of_pos _ hm

/-! ## Horner evaluation -/

theorem evaluate_polynomial_nil (p x : Int) : evaluate_polynomial p [] x = 0 := rfl

theorem evaluate_polynomial_cons (p x c : Int) (cs : List Int) :
    evaluate_polynomial p (c :: cs) x = (evaluate_polynomial p cs x * x + c) % p := by
  unfold evaluate_polynomial
  rw [List.reverse_cons, List.foldl_append]
  rfl

/-- Reference value from the specification: the sum over j of
coeffs[j] * x^j, reduced mod p. -/
def specPolynomialValue (p : Int) (coeffs : List Int) (x : Int) : Int :=
  (∑ j ∈ Finset.range coeffs.length, coeffs.getD j 0 * x ^ j) % p

theorem evaluate_polynomial_eq_spec (p : Int) (hp : 0 < p) (coeffs : List Int) (x : Int) :
    evaluate_polynomial p coeffs x = specPolynomialValue p coeffs x := by
  induction coeffs with
  | nil => simp [evaluate_polynomial_nil, specPolynomialValue]
  | cons c cs ih =>
    rw [evaluate_polynomial_cons, ih, specPolynomialValue, specPolynomialValue]
    rw [Int.add_emod, emod_mul_left, ← Int.add_emod]
    congr 1
    rw [List.length_cons, Finset.sum_range_succ']
    have hterm : ∀ j : Nat, (c :: cs).getD (j + 1) 0 * x ^ (j + 1) =
        cs.getD j 0 * x ^ j * x := by
      intro j
      rw [List.getD_cons_succ, pow_succ]
      ring
    simp only [hterm, List.getD_cons_zero, pow_zero, mul_one, ← Finset.sum_mul]

theorem evaluate_polynomial_nonneg (p : Int) (hp : 0 < p) (coeffs : List Int) (x : Int) :
    0 ≤ evaluate_polynomial p coeffs x := by
  rw [evaluate_polynomial_eq_spec p hp coeffs x]
  exact Int.emod_nonneg _ (by omega)

theorem evaluate_polynomial_lt (p : Int) (hp : 0 < p) (coeffs : List Int) (x : Int) :
    evaluate_polynomial p coeffs x < p := by
  rw [evaluate_polynomial_eq_spec p hp coeffs x]
  exact Int.emod_lt_of_pos _ hp

/-! ## Structure of generate_shares_and_commitments -/

theorem generate_shares_getD (p secret : Int) (t n : Nat) (fr gr : List Int) (i : Nat)
    (h1 : 1 ≤ i) (h2 : i ≤ n) :
    (generate_shares_and_commitments p secret t n fr gr).1.getD (i - 1) (0, 0) =
      (evaluate_polynomial p (generate_polynomial secret t fr) (i : Int),
       evaluate_polynomial p (generate_polynomial 0 t gr) (i : Int)) := by
  unfold generate_shares_and_commitments
  rw [List.getD_eq_getElem?_getD, List.getElem?_map]
  rw [List.getElem?_range (by omega : i - 1 < n)]
  have hi : ((i - 1 : Nat) : Int) + 1 = (i : Int) := by omega
  simp [hi]

theorem generate_commitments_getD (p secret : Int) (t n : Nat) (fr gr : List Int)
    (j : Nat) (hj : j < t) :
    (generate_shares_and_commitments p secret t n fr gr).2.1.getD j 0 =
      (pow_mod gGen ((generate_polynomial secret t fr).getD j 0) p *
       pow_mod hGen ((generate_polynomial 0 t gr).getD j 0) p) % p := by
  unfold generate_shares_and_commitments
  rw [List.getD_eq_getElem?_getD, List.getElem?_map]
  rw [List.getElem?_range hj]
  simp

theorem generate_shares_length (p secret : Int) (t n : Nat) (fr gr : List Int) :
    (generate_shares_and_commitments p secret t n fr gr).1.length = n := by
  unfold generate_shares_and_commitments
  simp

theorem generate_commitments_length (p secret : Int) (t n : Nat) (fr gr : List Int) :
    (generate_shares_and_commitments p secret t n fr gr).2.1.length = t := by
  unfold generate_shares_and_commitments
  simp

theorem generate_polynomial_length (s : Int) (t : Nat) (r : List Int)
    (ht : 1 ≤ t) (hr : t - 1 ≤ r.length) :
    (generate_polynomial s t r).length = t := by
  unfold generate_polynomial
  simp only [List.length_cons, List.length_take]
  omega

end PedersenVSS

/-! ## Extended Euclid and mod_inverse -/

namespace PedersenVSS

theorem gcd_emod_left (a m : Int) : Int.gcd (a % m) m = Int.gcd a m := by
  apply Nat.dvd_antisymm
  · rw [← Int.natCast_dvd_natCast]
    apply Int.dvd_gcd
    · have hd : (Int.gcd (a % m) m : Int) ∣ a % m + m * (a / m) :=
        dvd_add Int.gcd_dvd_left (Dvd.dvd.mul_right Int.gcd_dvd_right _)
      rwa [Int.emod_add_ediv a m] at hd
    · exact Int.gcd_dvd_right
  · rw [← Int.natCast_dvd_natCast]
    apply Int.dvd_gcd
    · rw [Int.emod_def]
      exact dvd_sub Int.gcd_dvd_left (Dvd.dvd.mul_right Int.gcd_dvd_right _)
    · exact Int.gcd_dvd_right

/-- The recursion of extended_gcd returns the gcd together with Bezout
coefficients for its two arguments. -/
theorem extended_gcd_spec :
    ∀ a : Nat, ∀ b : Int, 0 ≤ b →
      (extended_gcd a b).1 = Int.gcd (a : Int) b ∧
      (a : Int) * (extended_gcd a b).2.1 + b * (extended_gcd a b).2.2 =
        (extended_gcd a b).1 := by
  intro a
  induction a using Nat.strong_induction_on with
  | _ a ih =>
    intro b hb
    by_cases h : a = 0
    · subst h
      rw [extended_gcd]
      simp only [dif_pos]
      constructor
      · rw [Int.gcd]
        simp [Int.natAbs_of_nonneg hb]
      · ring
    · have ha : (0 : Int) < (a : Int) := by exact_mod_cast Nat.pos_of_ne_zero h
      have hr0 : 0 ≤ b % (a : Int) := Int.emod_nonneg b (by omega)
      have hrlt : (b % (a : Int)).toNat < a := by
        have := Int.emod_lt_of_pos b ha
        omega
      obtain ⟨ihg, ihb⟩ := ih _ hrlt (a : Int) (by positivity)
      have hcast : (((b % (a : Int)).toNat : Nat) : Int) = b % (a : Int) :=
        Int.toNat_of_nonneg hr0
      have e1 : (extended_gcd a b).1 = (extended_gcd (b % (a : Int)).toNat (a : Int)).1 := by
        rw [extended_gcd, dif_neg h]
      have e2 : (extended_gcd a b).2.1 =
          (extended_gcd (b % (a : Int)).toNat (a : Int)).2.2 -
            (b / (a : Int)) * (extended_gcd (b % (a : Int)).toNat (a : Int)).2.1 := by
        rw [extended_gcd, dif_neg h]
      have e3 : (extended_gcd a b).2.2 =
          (extended_gcd (b % (a : Int)).toNat (a : Int)).2.1 := by
        rw [extended_gcd, dif_neg h]
      constructor
      · rw [e1, ihg, hcast, gcd_emod_left, Int.gcd_comm]
      · rw [e1, e2, e3]
        rw [hcast] at ihb
        have hmod : b % (a : Int) = b - (a : Int) * (b / (a : Int)) := Int.emod_def b _
        linear_combination ihb - (extended_gcd (b % (a : Int)).toNat (a : Int)).2.1 * hmod

theorem mod_inverse_ok_eq (a m : Int) (h : (extended_gcd (a % m).toNat m).1 = 1) :
    mod_inverse a m = .ok (((extended_gcd (a % m).toNat m).2.1 % m + m) % m) := by
  unfold mod_inverse
  simp [h]

theorem mod_inverse_err_eq (a m : Int) (h : (extended_gcd (a % m).toNat m).1 ≠ 1) :
    mod_inverse a m = .error .domainError := by
  unfold mod_inverse
  simp [h]

theorem mod_inverse_spec (a m : Int) (hm : 1 < m) (hg : Int.gcd a m = 1) :
    ∃ r, mod_inverse a m = .ok r ∧ 0 ≤ r ∧ r < m ∧ (a * r) % m = 1 := by
  have hm0 : (0 : Int) < m := by omega
  obtain ⟨hgcd, hbez⟩ := extended_gcd_spec (a % m).toNat m (by omega)
  have hcast : (((a % m).toNat : Nat) : Int) = a % m :=
    Int.toNat_of_nonneg (Int.emod_nonneg a (by omega))
  rw [hcast] at hgcd hbez
  rw [gcd_emod_left, hg] at hgcd
  have hval : ((extended_gcd (a % m).toNat m).2.1 % m + m) % m =
      (extended_gcd (a % m).toNat m).2.1 % m := by
    rw [show (extended_gcd (a % m).toNat m).2.1 % m + m =
      (extended_gcd (a % m).toNat m).2.1 % m + m * 1 by ring, Int.add_mul_emod_self_left,
      Int.emod_emod_of_dvd _ dvd_rfl]
  refine ⟨(extended_gcd (a % m).toNat m).2.1 % m, ?_,
    Int.emod_nonneg _ (by omega), Int.emod_lt_of_pos _ hm0, ?_⟩
  · rw [mod_inverse_ok_eq a m (by exact_mod_cast hgcd), hval]
  · have hRa : (a % m * (extended_gcd (a % m).toNat m).2.1) % m = 1 % m := by
      have hx : a % m * (extended_gcd (a % m).toNat m).2.1 =
          1 + m * (-(extended_gcd (a % m).toNat m).2.2) := by
        have h1 : ((1 : Nat) : Int) = 1 := rfl
        rw [hgcd, h1] at hbez
        linear_combination hbez
      rw [hx, Int.add_mul_emod_self_left]
    rw [emod_mul_right, ← emod_mul_left, hRa, Int.emod_eq_of_lt (by norm_num) hm]

theorem mod_inverse_err (a m : Int) (hm : 1 < m) (hg : Int.gcd a m ≠ 1) :
    mod_inverse a m = .error .domainError := by
  obtain ⟨hgcd, _⟩ := extended_gcd_spec (a % m).toNat m (by omega)
  have hcast : (((a % m).toNat : Nat) : Int) = a % m :=
    Int.toNat_of_nonneg (Int.emod_nonneg a (by omega))
  rw [hcast, gcd_emod_left] at hgcd
  apply mod_inverse_err_eq
  rw [hgcd]
  exact_mod_cast hg

theorem mod_inverse_error_is_domain (a m : Int) (e : VSSError)
    (h : mod_inverse a m = .error e) : e = .domainError := by
  unfold mod_inverse at h
  by_cases hc : (extended_gcd (a % m).toNat m).1 ≠ 1
  · rw [if_pos hc] at h
    exact ((Except.error.injEq _ _).mp h).symm
  · rw [if_neg hc] at h
    simp at h

theorem mod_inverse_zero (p : Int) (hp : 1 < p) :
    mod_inverse 0 p = .error .domainError := by
  apply mod_inverse_err 0 p hp
  rw [Int.gcd]
  simp only [Int.natAbs_zero, Nat.gcd_zero_left]
  omega

theorem mod_inverse_unique (a m r y : Int) (hm : 1 < m) (hr0 : 0 ≤ r) (hrm : r < m)
    (har : (a * r) % m = 1) (hy0 : 0 ≤ y) (hym : y < m) (hay : (a * y) % m = 1) :
    y = r := by
  calc y = y % m := (Int.emod_eq_of_lt hy0 hym).symm
    _ = y * ((a * r) % m) % m := by rw [har, mul_one]
    _ = y * (a * r) % m := by rw [emod_mul_right]
    _ = (a * y) * r % m := by ring_nf
    _ = ((a * y) % m) * r % m := by rw [emod_mul_left]
    _ = r % m := by rw [hay, one_mul]
    _ = r := Int.emod_eq_of_lt hr0 hrm

/-! ## Duplicate indices in lagrange_interpolation -/

theorem getD_eq_getElem {α : Type} (l : List α) (k : Nat) (d : α) (hk : k < l.length) :
    l.getD k d = l[k] := by
  rw [List.getD_eq_getElem?_getD, List.getElem?_eq_getElem hk]
  rfl

theorem mem_enum_of_lt {α : Type} [Inhabited α] (l : List α) (k : Nat) (hk : k < l.length) :
    (k, l.getD k default) ∈ l.enum := by
  rw [getD_eq_getElem l k default hk]
  have hk' : k < l.enum.length := by rw [List.enum_length]; exact hk
  have he : l.enum[k] = (k, l[k]) := List.getElem_enum ..
  rw [← he]
  exact List.getElem_mem hk'

theorem foldl_denom_zero (p xi : Int) (i : Nat) (l : List (Nat × Int × Int × Int)) :
    l.foldl (fun acc jx => if jx.1 ≠ i then (acc * (xi - jx.2.1)) % p else acc) 0 = 0 := by
  induction l with
  | nil => rfl
  | cons hd tl ih =>
    rw [List.foldl_cons]
    have hz : (if hd.1 ≠ i then (0 * (xi - hd.2.1)) % p else 0) = 0 := by
      split <;> simp
    rw [hz, ih]

/-- If some other selected entry carries the same index, the
denominator loop returns exactly 0. -/
theorem lagrangeDenom_eq_zero (p xi : Int) (sel : List (Int × Int × Int)) (i k : Nat)
    (hk : k < sel.length) (hki : k ≠ i) (hx : (sel.getD k (0, 0, 0)).1 = xi) :
    lagrangeDenom p sel i xi = 0 := by
  unfold lagrangeDenom
  have hmem : (k, sel.getD k (0, 0, 0)) ∈ sel.enum := by
    have := mem_enum_of_lt (α := Int × Int × Int) sel k hk
    simpa using this
  obtain ⟨l1, l2, hsplit⟩ := List.append_of_mem hmem
  rw [hsplit, List.foldl_append, List.foldl_cons]
  dsimp only
  rw [if_pos hki, hx, sub_self, mul_zero, Int.zero_emod]
  exact foldl_denom_zero p xi i l2

/-- If any entry of the remaining list has a denominator without a
modular inverse, the interpolation loop fails with a DomainError. -/
theorem lagrangeSum_not_ok (p : Int) (sel : List (Int × Int × Int)) :
    ∀ (rest : List (Nat × Int × Int × Int)) (acc : Int),
      (∃ jx ∈ rest, mod_inverse (lagrangeDenom p sel jx.1 jx.2.1) p = .error .domainError) →
      lagrangeSum p sel rest acc = .error .domainError := by
  intro rest
  induction rest with
  | nil =>
    rintro acc ⟨jx, hmem, _⟩
    exact absurd hmem (List.not_mem_nil jx)
  | cons hd tl ih =>
    rintro acc ⟨jx, hmem, herr⟩
    obtain ⟨i, xi, fi, gi⟩ := hd
    rcases List.mem_cons.mp hmem with heq | hmemtl
    · subst heq
      simp only [lagrangeSum]
      rw [herr]
    · simp only [lagrangeSum]
      cases hmi : mod_inverse (lagrangeDenom p sel i xi) p with
      | error e =>
        rw [mod_inverse_error_is_domain _ _ _ hmi]
      | ok inv =>
        exact ih _ ⟨jx, hmemtl, herr⟩

theorem getD_take {α : Type} (l : List α) (t k : Nat) (d : α) (hk : k < t)
    (ht : t ≤ l.length) : (l.take t).getD k d = l.getD k d := by
  have h1 : k < (l.take t).length := by rw [List.length_take]; omega
  have h2 : k < l.length := by omega
  rw [getD_eq_getElem _ _ _ h1, getD_eq_getElem _ _ _ h2]
  exact List.getElem_take l

theorem getD_map {α β : Type} (f : α → β) (l : List α) (k : Nat) (hk : k < l.length)
    (d : β) (d' : α) : (l.map f).getD k d = f (l.getD k d') := by
  have hk2 : k < (l.map f).length := by simpa using hk
  rw [getD_eq_getElem _ _ _ hk2, getD_eq_getElem _ _ _ hk, List.getElem_map]

/-! ## Casting the interpolation loops into ZMod p -/

theorem intCast_emod_self (p : ℕ) (a : Int) :
    ((a % (p : Int) : Int) : ZMod p) = (a : ZMod p) := by
  rw [Int.emod_def]
  push_cast
  rw [ZMod.natCast_self]
  ring

theorem foldl_guard_cast (p : ℕ) (i : Nat) (f : Nat × (Int × Int × Int) → Int) :
    ∀ (l : List (Int × Int × Int)) (s : Nat) (acc : Int),
      ((List.foldl (fun a jx => if jx.1 ≠ i then (a * f jx) % (p : Int) else a) acc
        (l.enumFrom s) : Int) : ZMod p)
      = (acc : ZMod p) *
        ∏ k ∈ Finset.range l.length,
          (if s + k ≠ i then ((f (s + k, l.getD k (0, 0, 0)) : Int) : ZMod p) else 1) := by
  intro l
  induction l with
  | nil => intro s acc; simp
  | cons hd tl ih =>
    intro s acc
    rw [List.enumFrom_cons, List.foldl_cons, ih (s + 1)]
    rw [List.length_cons, Finset.prod_range_succ']
    have hprod : (∏ k ∈ Finset.range tl.length,
        (if s + (k + 1) ≠ i then
          ((f (s + (k + 1), (hd :: tl).getD (k + 1) (0, 0, 0)) : Int) : ZMod p) else 1))
      = ∏ k ∈ Finset.range tl.length,
        (if (s + 1) + k ≠ i then
          ((f ((s + 1) + k, tl.getD k (0, 0, 0)) : Int) : ZMod p) else 1) := by
      apply Finset.prod_congr rfl
      intro k _
      have he : s + (k + 1) = (s + 1) + k := by omega
      rw [List.getD_cons_succ, he]
    rw [hprod]
    by_cases hsi : s ≠ i
    · rw [if_pos hsi, intCast_emod_self]
      push_cast
      simp only [Nat.add_zero, List.getD_cons_zero]
      rw [if_pos hsi]
      ring
    · rw [if_neg hsi]
      simp only [Nat.add_zero, List.getD_cons_zero]
      rw [if_neg hsi]
      ring

theorem lagrangeNumer_cast (p : ℕ) (sel : List (Int × Int × Int)) (i : Nat) :
    ((lagrangeNumer (p : Int) sel i : Int) : ZMod p)
      = ∏ k ∈ Finset.range sel.length,
          (if k ≠ i then -(((sel.getD k (0, 0, 0)).1 : Int) : ZMod p) else 1) := by
  unfold lagrangeNumer
  rw [List.enum]
  rw [foldl_guard_cast p i (fun jx => -(jx.2.1)) sel 0 1]
  push_cast
  rw [one_mul]
  apply Finset.prod_congr rfl
  intro k _
  rw [Nat.zero_add]

theorem lagrangeDenom_cast (p : ℕ) (sel : List (Int × Int × Int)) (i : Nat) (xi : Int) :
    ((lagrangeDenom (p : Int) sel i xi : Int) : ZMod p)
      = ∏ k ∈ Finset.range sel.length,
          (if k ≠ i then
            ((xi : ZMod p) - (((sel.getD k (0, 0, 0)).1 : Int) : ZMod p)) else 1) := by
  unfold lagrangeDenom
  rw [List.enum]
  rw [foldl_guard_cast p i (fun jx => xi - jx.2.1) sel 0 1]
  push_cast
  rw [one_mul]
  apply Finset.prod_congr rfl
  intro k _
  rw [Nat.zero_add]

theorem mod_inverse_zmod (p : ℕ) (hp : p.Prime) (d : Int) (hd : (d : ZMod p) ≠ 0) :
    ∃ r, mod_inverse d (p : Int) = .ok r ∧ 0 ≤ r ∧ r < p ∧
      ((r : Int) : ZMod p) = ((d : ZMod p))⁻¹ := by
  haveI : Fact p.Prime := ⟨hp⟩
  have hp1 : (1 : Int) < (p : Int) := by exact_mod_cast hp.one_lt
  have hgcd : Int.gcd d (p : Int) = 1 := by
    have hnd : ¬ (p : Int) ∣ d := by
      intro hdvd
      exact hd ((ZMod.intCast_zmod_eq_zero_iff_dvd d p).mpr hdvd)
    rw [Int.gcd, Int.natAbs_cast]
    have hnd' : ¬ p ∣ d.natAbs := fun hdvd => hnd (Int.natCast_dvd.mpr hdvd)
    exact Nat.coprime_comm.mp ((Nat.Prime.coprime_iff_not_dvd hp).mpr hnd')
  obtain ⟨r, hok, hr0, hrm, hmul⟩ := mod_inverse_spec d (p : Int) hp1 hgcd
  refine ⟨r, hok, hr0, hrm, ?_⟩
  have hcast : ((d * r % (p : Int) : Int) : ZMod p) = ((1 : Int) : ZMod p) := by rw [hmul]
  rw [intCast_emod_self] at hcast
  push_cast at hcast
  exact (inv_eq_of_mul_eq_one_right hcast).symm

/-- The interpolation loop succeeds and computes, in ZMod p, the
accumulated Lagrange sum, whenever every remaining denominator is a
unit mod p. -/
theorem lagrangeSum_spec (p : ℕ) (hp : p.Prime) (sel : List (Int × Int × Int)) :
    ∀ (rest : List (Nat × Int × Int × Int)) (acc : Int),
      (∀ jx ∈ rest, ((lagrangeDenom (p : Int) sel jx.1 jx.2.1 : Int) : ZMod p) ≠ 0) →
      0 ≤ acc → acc < p →
      ∃ r, lagrangeSum (p : Int) sel rest acc = .ok r ∧ 0 ≤ r ∧ r < p ∧
        ((r : Int) : ZMod p) = (acc : ZMod p) +
          (rest.map (fun jx => ((jx.2.2.1 : Int) : ZMod p) *
            (((lagrangeNumer (p : Int) sel jx.1 : Int) : ZMod p) *
             ((lagrangeDenom (p : Int) sel jx.1 jx.2.1 : Int) : ZMod p)⁻¹))).sum := by
  intro rest
  induction rest with
  | nil =>
    intro acc hd0 h0 h1
    exact ⟨acc, rfl, h0, h1, by simp⟩
  | cons hd tl ih =>
    intro acc hdco h0 h1
    obtain ⟨i, xi, fi, gi⟩ := hd
    have hdcast : ((lagrangeDenom (p : Int) sel i xi : Int) : ZMod p) ≠ 0 :=
      hdco (i, xi, fi, gi) (List.mem_cons_self _ _)
    obtain ⟨inv, hok, hi0, him, hicast⟩ := mod_inverse_zmod p hp _ hdcast
    have hp0 : (0 : Int) < (p : Int) := by exact_mod_cast hp.pos
    simp only [lagrangeSum, hok]
    set acc' := (acc + fi * ((lagrangeNumer (p : Int) sel i * inv) % (p : Int))) % (p : Int)
      with hacc'
    have h0' : 0 ≤ acc' := Int.emod_nonneg _ (by omega)
    have h1' : acc' < (p : Int) := Int.emod_lt_of_pos _ hp0
    obtain ⟨r, hrok, hr0, hrm, hrcast⟩ :=
      ih acc' (fun jx hjx => hdco jx (List.mem_cons_of_mem _ hjx)) h0' h1'
    refine ⟨r, hrok, hr0, hrm, ?_⟩
    have hacast : ((acc' : Int) : ZMod p) = (acc : ZMod p) +
        ((fi : ZMod p) * (((lagrangeNumer (p : Int) sel i : Int) : ZMod p) *
          ((lagrangeDenom (p : Int) sel i xi : Int) : ZMod p)⁻¹)) := by
      rw [hacc', intCast_emod_self, Int.cast_add, Int.cast_mul, intCast_emod_self,
        Int.cast_mul, hicast]
    rw [hrcast, hacast, List.map_cons, List.sum_cons]
    ring

theorem enumFrom_map_sum (p : ℕ) (G : Nat × (Int × Int × Int) → ZMod p) :
    ∀ (l : List (Int × Int × Int)) (s : Nat),
      ((l.enumFrom s).map G).sum
        = ∑ k ∈ Finset.range l.length, G (s + k, l.getD k (0, 0, 0)) := by
  intro l
  induction l with
  | nil => intro s; simp
  | cons hd tl ih =>
    intro s
    rw [List.enumFrom_cons, List.map_cons, List.sum_cons, ih (s + 1)]
    rw [List.length_cons, Finset.sum_range_succ']
    have hsum : (∑ k ∈ Finset.range tl.length,
        G (s + (k + 1), (hd :: tl).getD (k + 1) (0, 0, 0)))
        = ∑ k ∈ Finset.range tl.length, G ((s + 1) + k, tl.getD k (0, 0, 0)) := by
      apply Finset.sum_congr rfl
      intro k _
      have he : s + (k + 1) = (s + 1) + k := by omega
      rw [List.getD_cons_succ, he]
    rw [hsum]
    simp only [Nat.add_zero, List.getD_cons_zero]
    ring

theorem prod_if_ne_erase (p : ℕ) (t i : Nat) (hi : i < t) (g : Nat → ZMod p) :
    (∏ k ∈ Finset.range t, if k ≠ i then g k else 1)
      = ∏ k ∈ (Finset.range t).erase i, g k := by
  rw [← Finset.mul_prod_erase (Finset.range t) _ (Finset.mem_range.mpr hi)]
  rw [if_neg (by simp), one_mul]
  apply Finset.prod_congr rfl
  intro k hk
  rw [if_pos (Finset.ne_of_mem_erase hk)]

/-! ## Polynomials over ZMod p and Lagrange interpolation at zero -/

/-- The polynomial over ZMod p whose coefficients are the residues of
the given integer coefficient list. -/
noncomputable def polyOfCoeffs (p : ℕ) (coeffs : List Int) : Polynomial (ZMod p) :=
  ∑ j ∈ Finset.range coeffs.length,
    Polynomial.C ((coeffs.getD j 0 : Int) : ZMod p) * Polynomial.X ^ j

theorem polyOfCoeffs_eval (p : ℕ) (coeffs : List Int) (z : ZMod p) :
    (polyOfCoeffs p coeffs).eval z
      = ∑ j ∈ Finset.range coeffs.length, ((coeffs.getD j 0 : Int) : ZMod p) * z ^ j := by
  unfold polyOfCoeffs
  rw [Polynomial.eval_finset_sum]
  apply Finset.sum_congr rfl
  intro j _
  simp

theorem polyOfCoeffs_degree_lt (p : ℕ) (t : Nat) (coeffs : List Int)
    (hlen : coeffs.length ≤ t) :
    (polyOfCoeffs p coeffs).degree < (t : ℕ) := by
  apply lt_of_le_of_lt (Polynomial.degree_sum_le _ _)
  rw [Finset.sup_lt_iff (by exact_mod_cast WithBot.bot_lt_coe t)]
  intro j hj
  apply lt_of_le_of_lt (Polynomial.degree_C_mul_X_pow_le _ _)
  have hjt : j < t := by
    have := Finset.mem_range.mp hj
    omega
  exact_mod_cast hjt

theorem polyOfCoeffs_eval_zero (p : ℕ) (coeffs : List Int) (h : 0 < coeffs.length) :
    (polyOfCoeffs p coeffs).eval 0 = ((coeffs.getD 0 0 : Int) : ZMod p) := by
  rw [polyOfCoeffs_eval]
  rw [Finset.sum_eq_single 0]
  · simp
  · intro j _ hj0
    rw [zero_pow hj0, mul_zero]
  · intro h0
    exact absurd (Finset.mem_range.mpr h) h0

theorem evaluate_polynomial_cast (p : ℕ) (hp : 0 < p) (coeffs : List Int) (x : Int) :
    ((evaluate_polynomial (p : Int) coeffs x : Int) : ZMod p)
      = (polyOfCoeffs p coeffs).eval ((x : Int) : ZMod p) := by
  rw [evaluate_polynomial_eq_spec _ (by exact_mod_cast hp) coeffs x, specPolynomialValue,
    intCast_emod_self, polyOfCoeffs_eval]
  push_cast
  rfl

/-- Lagrange interpolation at the point 0: a polynomial of degree below
t is recovered at 0 from its values at t points with distinct images. -/
theorem lagrange_at_zero (p : ℕ) (hp : p.Prime) (t : Nat) (v : ℕ → ZMod p)
    (hvs : Set.InjOn v (Finset.range t)) (f : Polynomial (ZMod p))
    (hdeg : f.degree < (t : ℕ)) :
    f.eval 0 = ∑ i ∈ Finset.range t, f.eval (v i) *
      ((∏ j ∈ (Finset.range t).erase i, -(v j)) *
       (∏ j ∈ (Finset.range t).erase i, (v i - v j))⁻¹) := by
  haveI : Fact p.Prime := ⟨hp⟩
  have hfeq := Lagrange.eq_interpolate (v := v) (s := Finset.range t) hvs
    (by rw [Finset.card_range]; exact_mod_cast hdeg)
  conv_lhs => rw [hfeq]
  rw [Lagrange.interpolate_apply, Polynomial.eval_finset_sum]
  apply Finset.sum_congr rfl
  intro i _
  rw [Polynomial.eval_mul, Polynomial.eval_C]
  congr 1
  rw [Lagrange.basis, Polynomial.eval_prod]
  have hterm : ∀ j ∈ (Finset.range t).erase i,
      Polynomial.eval 0 (Lagrange.basisDivisor (v i) (v j))
        = (v i - v j)⁻¹ * (-(v j)) := by
    intro j _
    rw [Lagrange.basisDivisor]
    simp
  rw [Finset.prod_congr rfl hterm, Finset.prod_mul_distrib, Finset.prod_inv_distrib]
  ring

theorem generate_polynomial_length_le (s : Int) (t : Nat) (ht : 1 ≤ t) (r : List Int) :
    (generate_polynomial s t r).length ≤ t := by
  unfold generate_polynomial
  simp only [List.length_cons, List.length_take]
  omega

theorem int_eq_of_cast_eq (p : ℕ) (a b : Int) (ha0 : 0 ≤ a) (hap : a < (p : Int))
    (hb0 : 0 ≤ b) (hbp : b < (p : Int)) (h : ((a : Int) : ZMod p) = ((b : Int) : ZMod p)) :
    a = b := by
  have hmod := (ZMod.intCast_eq_intCast_iff a b p).mp h
  rw [Int.ModEq] at hmod
  rwa [Int.emod_eq_of_lt ha0 hap, Int.emod_eq_of_lt hb0 hbp] at hmod

/-- Round-trip correctness of the interpolation loop on any selection
of t shares whose indices are distinct naturals in [1, n] with n < p:
the reconstructed value is the secret. -/
theorem lagrange_roundtrip (p : ℕ) (hp : p.Prime) (secret : Int)
    (hs0 : 0 ≤ secret) (hsp : secret < (p : Int))
    (t n : Nat) (ht : 1 ≤ t) (htn : t ≤ n) (hnp : n < p)
    (f_rands g_rands : List Int)
    (idxs : List Nat) (hlen : idxs.length = t) (hnd : idxs.Nodup)
    (hmem : ∀ i ∈ idxs, 1 ≤ i ∧ i ≤ n) :
    lagrange_interpolation (p : Int)
      (idxs.map (fun (i : Nat) => ((i : Int),
        (generate_shares_and_commitments (p : Int) secret t n f_rands g_rands).1.getD
          (i - 1) (0, 0)))) t = .ok secret := by
  haveI : Fact p.Prime := ⟨hp⟩
  have hp0 : (0 : Int) < (p : Int) := by exact_mod_cast hp.pos
  set fc := generate_polynomial secret t f_rands with hfc
  set gc := generate_polynomial 0 t g_rands with hgc
  set L := idxs.map (fun (i : Nat) => ((i : Int),
    (generate_shares_and_commitments (p : Int) secret t n f_rands g_rands).1.getD
      (i - 1) (0, 0))) with hLdef
  have hL : L.length = t := by rw [hLdef, List.length_map, hlen]
  -- the k-th supplied share
  have hidx : ∀ k, k < t → idxs.getD k 0 ∈ idxs := by
    intro k hk
    have hk' : k < idxs.length := by omega
    rw [getD_eq_getElem idxs k 0 hk']
    exact List.getElem_mem hk'
  have hLk : ∀ k, k < t → L.getD k (0, 0, 0) =
      (((idxs.getD k 0 : Nat) : Int),
       evaluate_polynomial (p : Int) fc ((idxs.getD k 0 : Nat) : Int),
       evaluate_polynomial (p : Int) gc ((idxs.getD k 0 : Nat) : Int)) := by
    intro k hk
    have hk' : k < idxs.length := by omega
    have hkL : k < L.length := by omega
    obtain ⟨h1, h2⟩ := hmem _ (hidx k hk)
    rw [hLdef, getD_map _ idxs k hk' (0, 0, 0) 0]
    rw [generate_shares_getD (p : Int) secret t n f_rands g_rands _ h1 h2]
  -- nodes in ZMod p
  set v : ℕ → ZMod p := fun k => (((idxs.getD k 0 : Nat) : Int) : ZMod p) with hv
  have hvval : ∀ k, k < t → (v k).val = idxs.getD k 0 := by
    intro k hk
    have h2 := (hmem _ (hidx k hk)).2
    have hlt : idxs.getD k 0 < p := by omega
    rw [hv]
    simp only [Int.cast_natCast]
    exact ZMod.val_cast_of_lt hlt
  have hvinj : Set.InjOn v (Finset.range t) := by
    intro a ha b hb hab
    have ha' : a < t := by simpa using ha
    have hb' : b < t := by simpa using hb
    have heq : idxs.getD a 0 = idxs.getD b 0 := by
      rw [← hvval a ha', ← hvval b hb', hab]
    have hinj := List.nodup_iff_injective_get.mp hnd
    have ha'' : a < idxs.length := by omega
    have hb'' : b < idxs.length := by omega
    rw [getD_eq_getElem idxs a 0 ha'', getD_eq_getElem idxs b 0 hb''] at heq
    have hfin : (⟨a, ha''⟩ : Fin idxs.length) = ⟨b, hb''⟩ := hinj heq
    exact congrArg Fin.val hfin
  -- each denominator is a unit mod p
  have hdenomcast : ∀ k, k < t →
      ((lagrangeDenom (p : Int) L k ((idxs.getD k 0 : Nat) : Int) : Int) : ZMod p)
        = ∏ j ∈ (Finset.range t).erase k, (v k - v j) := by
    intro k hk
    rw [lagrangeDenom_cast, hL]
    rw [show (∏ j ∈ Finset.range t,
        if j ≠ k then ((((idxs.getD k 0 : Nat) : Int) : ZMod p) -
          (((L.getD j (0, 0, 0)).1 : Int) : ZMod p)) else 1)
      = ∏ j ∈ Finset.range t, (if j ≠ k then (v k - v j) else 1) from
      Finset.prod_congr rfl (by
        intro j hj
        by_cases hjk : j ≠ k
        · rw [if_pos hjk, if_pos hjk, hLk j (by simpa using hj)]
        · rw [if_neg hjk, if_neg hjk])]
    exact prod_if_ne_erase p t k hk _
  have hdenom0 : ∀ k, k < t →
      ((lagrangeDenom (p : Int) L k ((idxs.getD k 0 : Nat) : Int) : Int) : ZMod p) ≠ 0 := by
    intro k hk
    rw [hdenomcast k hk]
    rw [Finset.prod_ne_zero_iff]
    intro j hj
    have hjk : j ≠ k := Finset.ne_of_mem_erase hj
    have hjt : j < t := by
      have := Finset.mem_of_mem_erase hj
      simpa using this
    intro hzero
    have : v k = v j := by
      have := sub_eq_zero.mp hzero
      exact this
    exact hjk ((hvinj (by simp [hk] : k ∈ (Finset.range t : Set ℕ))
      (by simp [hjt] : j ∈ (Finset.range t : Set ℕ)) this).symm)
  -- run the loop
  rw [lagrange_interpolation, if_neg (by omega)]
  have hsel : L.take t = L := by
    apply List.take_of_length_le
    omega
  rw [hsel]
  have hdenommem : ∀ jx ∈ L.enum,
      ((lagrangeDenom (p : Int) L jx.1 jx.2.1 : Int) : ZMod p) ≠ 0 := by
    intro jx hjx
    obtain ⟨k, hk, hkeq⟩ := List.mem_iff_getElem.mp hjx
    have hkL : k < L.length := by
      have := hk
      rwa [List.enum_length] at this
    have henum : L.enum[k] = (k, L[k]) := List.getElem_enum ..
    rw [← hkeq, henum]
    have hkt : k < t := by omega
    have hx : L[k].1 = ((idxs.getD k 0 : Nat) : Int) := by
      rw [← getD_eq_getElem L k (0, 0, 0) hkL, hLk k hkt]
    show ((lagrangeDenom (p : Int) L k L[k].1 : Int) : ZMod p) ≠ 0
    rw [hx]
    exact hdenom0 k hkt
  obtain ⟨r, hok, hr0, hrp, hcast⟩ :=
    lagrangeSum_spec p hp L L.enum 0 hdenommem le_rfl hp0
  rw [hok]
  -- identify the computed value with the secret
  have hsum : ((r : Int) : ZMod p) = ((secret : Int) : ZMod p) := by
    rw [hcast]
    rw [show (List.enum L) = List.enumFrom 0 L from rfl, enumFrom_map_sum, hL]
    have hterm : ∀ k ∈ Finset.range t,
        (((0 + k, L.getD k (0, 0, 0)).2.2.1 : Int) : ZMod p) *
          (((lagrangeNumer (p : Int) L (0 + k, L.getD k (0, 0, 0)).1 : Int) : ZMod p) *
           ((lagrangeDenom (p : Int) L (0 + k, L.getD k (0, 0, 0)).1
              (0 + k, L.getD k (0, 0, 0)).2.1 : Int) : ZMod p)⁻¹)
        = (polyOfCoeffs p fc).eval (v k) *
          ((∏ j ∈ (Finset.range t).erase k, -(v j)) *
           (∏ j ∈ (Finset.range t).erase k, (v k - v j))⁻¹) := by
      intro k hk
      have hkt : k < t := by simpa using hk
      simp only [Nat.zero_add]
      rw [hLk k hkt]
      congr 1
      · rw [evaluate_polynomial_cast p hp.pos]
      · congr 1
        · rw [lagrangeNumer_cast, hL]
          rw [show (∏ j ∈ Finset.range t,
              if j ≠ k then -(((L.getD j (0, 0, 0)).1 : Int) : ZMod p) else 1)
            = ∏ j ∈ Finset.range t, (if j ≠ k then -(v j) else 1) from
            Finset.prod_congr rfl (by
              intro j hj
              by_cases hjk : j ≠ k
              · rw [if_pos hjk, if_pos hjk, hLk j (by simpa using hj)]
              · rw [if_neg hjk, if_neg hjk])]
          exact prod_if_ne_erase p t k hkt _
        · rw [hdenomcast k hkt]
    rw [Finset.sum_congr rfl hterm]
    have hdeg : (polyOfCoeffs p fc).degree < (t : ℕ) :=
      polyOfCoeffs_degree_lt p t fc (generate_polynomial_length_le secret t ht f_rands)
    rw [← lagrange_at_zero p hp t v hvinj _ hdeg]
    rw [polyOfCoeffs_eval_zero p fc (by rw [hfc]; simp [generate_polynomial])]
    rw [hfc]
    simp [generate_polynomial]
  have : r = secret := int_eq_of_cast_eq p r secret hr0 hrp hs0 hsp hsum
  rw [this]

end PedersenVSS

/-! ## Claim theorems -/

namespace PedersenVSS

/-- C3: for every shares list whose length is strictly less than the
threshold, lagrange_interpolation fails with the insufficient-shares
error and never returns a value. -/
theorem claim_insufficient_shares (p : Int) (shares : List (Int × Int × Int))
    (threshold : Nat) (h : shares.length < threshold) :
    lagrange_interpolation p shares threshold = .error .insufficientSharesError := by
  rw [lagrange_interpolation, if_pos h]

theorem claim_insufficient_shares_witness :
    lagrange_interpolation 7 [(1, 5, 0)] 2 = .error .insufficientSharesError :=
  claim_insufficient_shares 7 [(1, 5, 0)] 2 (by norm_num)

/-- C7 counterexample: with modulus 1 and exponent 0, pow_mod returns
the unreduced value 1 rather than base ^ exponent mod modulus = 0, and
the result is not in the range [0, modulus). -/
theorem claim_pow_mod_counterexample :
    pow_mod 2 0 1 = 1 ∧ (2 : Int) ^ (0 : Int).toNat % 1 = 0 ∧
    ¬ pow_mod 2 0 1 < 1 := by
  have h : pow_mod 2 0 1 = 1 := by simp [pow_mod, powModLoop]
  refine ⟨h, by norm_num, by rw [h]; norm_num⟩

/-- C7 (amended): for every integer base, every non-negative integer
exponent and every positive integer modulus, provided the modulus is
greater than 1 or the exponent is positive, pow_mod returns
(base mod modulus) ^ exponent mod modulus, equal to
base ^ exponent mod modulus, a value in [0, modulus). -/
theorem claim_pow_mod_correct (base exp m : Int) (he : 0 ≤ exp) (hm : 0 < m)
    (h : 1 < m ∨ 0 < exp) :
    pow_mod base exp m = (base % m) ^ exp.toNat % m ∧
    pow_mod base exp m = base ^ exp.toNat % m ∧
    0 ≤ pow_mod base exp m ∧ pow_mod base exp m < m := by
  refine ⟨?_, pow_mod_eq base exp m hm h, pow_mod_nonneg base exp m hm h,
    pow_mod_lt base exp m hm h⟩
  rw [pow_mod_eq base exp m hm h, emod_pow]

theorem claim_pow_mod_correct_witness :
    pow_mod 2 5 7 = ((2 : Int) % 7) ^ (5 : Int).toNat % 7 ∧
    pow_mod 2 5 7 = (2 : Int) ^ (5 : Int).toNat % 7 ∧
    0 ≤ pow_mod 2 5 7 ∧ pow_mod 2 5 7 < 7 :=
  claim_pow_mod_correct 2 5 7 (by norm_num) (by norm_num) (Or.inl (by norm_num))

/-- C8: for every coefficient list and every non-negative integer x,
Horner evaluation equals the reference definition
(sum over j of coeffs[j] * x^j) mod p, and the result lies in [0, p). -/
theorem claim_horner_equivalence (p : Int) (hp : 0 < p) (coeffs : List Int)
    (x : Int) (hx : 0 ≤ x) :
    evaluate_polynomial p coeffs x = specPolynomialValue p coeffs x ∧
    0 ≤ evaluate_polynomial p coeffs x ∧ evaluate_polynomial p coeffs x < p :=
  ⟨evaluate_polynomial_eq_spec p hp coeffs x, evaluate_polynomial_nonneg p hp coeffs x,
    evaluate_polynomial_lt p hp coeffs x⟩

theorem claim_horner_equivalence_witness :
    evaluate_polynomial 7 [6, 6] 2 = specPolynomialValue 7 [6, 6] 2 ∧
    0 ≤ evaluate_polynomial 7 [6, 6] 2 ∧ evaluate_polynomial 7 [6, 6] 2 < 7 :=
  claim_horner_equivalence 7 (by norm_num) [6, 6] 2 (by norm_num)

/-- C2 counterexample: the claim as stated fails when n is at least the
session prime.  With p = 7, secret = 0, threshold t = 2, n = 8 ≥ t, and
zero random draws, the 2-element subset with indices {1, 8} (distinct
indices in 1..n) does not reconstruct the secret 0: indices 1 and 8 are
congruent mod 7, so the denominator 1 - 8 reduces to 0 mod p and
reconstruction fails with a DomainError. -/
theorem claim_roundtrip_reconstruction_counterexample :
    lagrange_interpolation 7 ([1, 8].map (fun (i : Nat) => ((i : Int),
      (generate_shares_and_commitments 7 0 2 8 [0] [0]).1.getD (i - 1) (0, 0)))) 2
      = .error .domainError ∧
    lagrange_interpolation 7 ([1, 8].map (fun (i : Nat) => ((i : Int),
      (generate_shares_and_commitments 7 0 2 8 [0] [0]).1.getD (i - 1) (0, 0)))) 2
      ≠ .ok 0 := by
  have hshare : ∀ i : Nat, 1 ≤ i → i ≤ 8 →
      (generate_shares_and_commitments 7 0 2 8 [0] [0]).1.getD (i - 1) (0, 0) = (0, 0) := by
    intro i h1 h2
    rw [generate_shares_getD 7 0 2 8 [0] [0] i h1 h2]
    norm_num [generate_polynomial, evaluate_polynomial]
  have hmap : ([1, 8].map (fun (i : Nat) => ((i : Int),
      (generate_shares_and_commitments 7 0 2 8 [0] [0]).1.getD (i - 1) (0, 0))))
      = [(1, 0, 0), (8, 0, 0)] := by
    rw [List.map_cons, List.map_cons, List.map_nil]
    rw [hshare 1 (by norm_num) (by norm_num), hshare 8 (by norm_num) (by norm_num)]
    norm_num
  have h : lagrange_interpolation 7 ([1, 8].map (fun (i : Nat) => ((i : Int),
      (generate_shares_and_commitments 7 0 2 8 [0] [0]).1.getD (i - 1) (0, 0)))) 2
      = .error .domainError := by
    rw [hmap]
    simp [lagrange_interpolation, lagrangeSum, lagrangeNumer, lagrangeDenom,
      mod_inverse, extended_gcd, List.enum, List.enumFrom]
  exact ⟨h, by rw [h]; intro hc; exact absurd hc (by simp)⟩

/-- C2 (amended): for every session prime p, secret in [0, p),
threshold t ≥ 1 and t ≤ n with additionally n < p, every t-sized subset
of the n generated (index, share) pairs, supplied in any order,
reconstructs exactly the secret via lagrange_interpolation: the result
does not depend on which t-subset is chosen or on its ordering. -/
theorem claim_roundtrip_reconstruction (p : ℕ) (hp : p.Prime) (secret : Int)
    (hs0 : 0 ≤ secret) (hsp : secret < (p : Int))
    (t n : Nat) (ht : 1 ≤ t) (htn : t ≤ n) (hnp : n < p)
    (f_rands g_rands : List Int)
    (idxs : List Nat) (hlen : idxs.length = t) (hnd : idxs.Nodup)
    (hmem : ∀ i ∈ idxs, 1 ≤ i ∧ i ≤ n) :
    lagrange_interpolation (p : Int)
      (idxs.map (fun (i : Nat) => ((i : Int),
        (generate_shares_and_commitments (p : Int) secret t n f_rands g_rands).1.getD
          (i - 1) (0, 0)))) t = .ok secret :=
  lagrange_roundtrip p hp secret hs0 hsp t n ht htn hnp f_rands g_rands idxs hlen hnd hmem

theorem claim_roundtrip_reconstruction_witness :
    lagrange_interpolation 7 ([3, 1].map (fun (i : Nat) => ((i : Int),
      (generate_shares_and_commitments 7 3 2 3 [1] [2]).1.getD (i - 1) (0, 0)))) 2
      = .ok 3 :=
  claim_roundtrip_reconstruction 7 (by norm_num) 3 (by norm_num) (by norm_num) 2 3
    (by norm_num) (by norm_num) (by norm_num) [1] [2] [3, 1] rfl (by decide) (by decide)

/-- C4: for every shares list of length at least the threshold in which
two of the first threshold entries carry the same index, and for the
session prime p > 1, lagrange_interpolation fails with a DomainError (a
zero denominator with no modular inverse) rather than returning any
value. -/
theorem claim_duplicate_index (p : Int) (hp : 1 < p) (shares : List (Int × Int × Int))
    (t : Nat) (hlen : t ≤ shares.length) (i j : Nat) (hij : i < j) (hjt : j < t)
    (hdup : (shares.getD i (0, 0, 0)).1 = (shares.getD j (0, 0, 0)).1) :
    lagrange_interpolation p shares t = .error .domainError := by
  rw [lagrange_interpolation, if_neg (by omega)]
  have hsellen : (shares.take t).length = t := by rw [List.length_take]; omega
  have hjsel : j < (shares.take t).length := by omega
  have hisel : i < (shares.take t).length := by omega
  apply lagrangeSum_not_ok
  refine ⟨(j, (shares.take t).getD j (0, 0, 0)), ?_, ?_⟩
  · have := mem_enum_of_lt (α := Int × Int × Int) (shares.take t) j hjsel
    simpa using this
  · have hd0 : lagrangeDenom p (shares.take t) j ((shares.take t).getD j (0, 0, 0)).1 = 0 := by
      apply lagrangeDenom_eq_zero p _ (shares.take t) j i hisel (by omega)
      rw [getD_take shares t i (0, 0, 0) (by omega) hlen,
        getD_take shares t j (0, 0, 0) hjt hlen]
      exact hdup
    show mod_inverse (lagrangeDenom p (shares.take t) j
      ((shares.take t).getD j (0, 0, 0)).1) p = .error .domainError
    rw [hd0]
    exact mod_inverse_zero p hp

theorem claim_duplicate_index_witness :
    lagrange_interpolation 7 [(1, 5, 0), (1, 5, 0), (2, 4, 0)] 2 = .error .domainError :=
  claim_duplicate_index 7 (by norm_num) [(1, 5, 0), (1, 5, 0), (2, 4, 0)] 2
    (by norm_num) 0 1 (by norm_num) (by norm_num) rfl

/-- C6: for every integer a and modulus m > 1, mod_inverse fails with a
DomainError exactly when gcd(a, m) is not 1, and otherwise returns the
unique x in [0, m) with (a * x) mod m = 1. -/
theorem claim_mod_inverse_contract (a m : Int) (hm : 1 < m) :
    (Int.gcd a m ≠ 1 → mod_inverse a m = .error .domainError) ∧
    (Int.gcd a m = 1 → ∃ r, mod_inverse a m = .ok r ∧ 0 ≤ r ∧ r < m ∧
      (a * r) % m = 1 ∧ ∀ y, 0 ≤ y → y < m → (a * y) % m = 1 → y = r) := by
  refine ⟨fun hg => mod_inverse_err a m hm hg, fun hg => ?_⟩
  obtain ⟨r, hok, hr0, hrm, har⟩ := mod_inverse_spec a m hm hg
  exact ⟨r, hok, hr0, hrm, har,
    fun y hy0 hym hay => mod_inverse_unique a m r y hm hr0 hrm har hy0 hym hay⟩

theorem claim_mod_inverse_contract_witness :
    (Int.gcd 3 7 ≠ 1 → mod_inverse 3 7 = .error .domainError) ∧
    (Int.gcd 3 7 = 1 → ∃ r, mod_inverse 3 7 = .ok r ∧ 0 ≤ r ∧ r < 7 ∧
      (3 * r) % 7 = 1 ∧ ∀ y, 0 ≤ y → y < 7 → (3 * y) % 7 = 1 → y = r) :=
  claim_mod_inverse_contract 3 7 (by norm_num)

/-- C9: generation structure: with t >= 1 and n >= 1 and random draws
of the lengths the source draws (t - 1 each), the third output is
f_coeffs = generate_polynomial secret t f_rands, both coefficient lists
have length t with constant terms secret and 0 respectively, the n
shares are the evaluations of both polynomials at i = 1..n, and the t
commitments are g^(f_j) * h^(g_j) mod p computed with pow_mod. -/
theorem claim_generate_structure (p secret : Int) (t n : Nat) (ht : 1 ≤ t) (hn : 1 ≤ n)
    (fr gr : List Int) (hf : fr.length = t - 1) (hg : gr.length = t - 1) :
    (generate_shares_and_commitments p secret t n fr gr).2.2 =
      generate_polynomial secret t fr ∧
    (generate_polynomial secret t fr).length = t ∧
    (generate_polynomial secret t fr).getD 0 0 = secret ∧
    (generate_polynomial 0 t gr).length = t ∧
    (generate_polynomial 0 t gr).getD 0 0 = 0 ∧
    (generate_shares_and_commitments p secret t n fr gr).1.length = n ∧
    (∀ i, 1 ≤ i → i ≤ n →
      (generate_shares_and_commitments p secret t n fr gr).1.getD (i - 1) (0, 0) =
        (evaluate_polynomial p (generate_polynomial secret t fr) (i : Int),
         evaluate_polynomial p (generate_polynomial 0 t gr) (i : Int))) ∧
    (generate_shares_and_commitments p secret t n fr gr).2.1.length = t ∧
    (∀ j, j < t →
      (generate_shares_and_commitments p secret t n fr gr).2.1.getD j 0 =
        (pow_mod gGen ((generate_polynomial secret t fr).getD j 0) p *
         pow_mod hGen ((generate_polynomial 0 t gr).getD j 0) p) % p) :=
  ⟨by unfold generate_shares_and_commitments; rfl,
   generate_polynomial_length secret t fr ht (by omega),
   List.getD_cons_zero,
   generate_polynomial_length 0 t gr ht (by omega),
   List.getD_cons_zero,
   generate_shares_length p secret t n fr gr,
   fun i h1 h2 => generate_shares_getD p secret t n fr gr i h1 h2,
   generate_commitments_length p secret t n fr gr,
   fun j hj => generate_commitments_getD p secret t n fr gr j hj⟩

theorem claim_generate_structure_witness :
    (generate_shares_and_commitments 7 6 2 2 [6] [0]).2.2 =
      generate_polynomial 6 2 [6] ∧
    (generate_polynomial 6 2 [6]).length = 2 ∧
    (generate_polynomial 6 2 [6]).getD 0 0 = 6 ∧
    (generate_polynomial 0 2 [0]).length = 2 ∧
    (generate_polynomial 0 2 [0]).getD 0 0 = 0 ∧
    (generate_shares_and_commitments 7 6 2 2 [6] [0]).1.length = 2 ∧
    (∀ i, 1 ≤ i → i ≤ 2 →
      (generate_shares_and_commitments 7 6 2 2 [6] [0]).1.getD (i - 1) (0, 0) =
        (evaluate_polynomial 7 (generate_polynomial 6 2 [6]) (i : Int),
         evaluate_polynomial 7 (generate_polynomial 0 2 [0]) (i : Int))) ∧
    (generate_shares_and_commitments 7 6 2 2 [6] [0]).2.1.length = 2 ∧
    (∀ j, j < 2 →
      (generate_shares_and_commitments 7 6 2 2 [6] [0]).2.1.getD j 0 =
        (pow_mod gGen ((generate_polynomial 6 2 [6]).getD j 0) 7 *
         pow_mod hGen ((generate_polynomial 0 2 [0]).getD j 0) 7) % 7) :=
  claim_generate_structure 7 6 2 2 (by norm_num) (by norm_num) [6] [0] rfl rfl

/-- C5: the claim says generate_shares_and_commitments rejects
threshold < 1 or num_shares < threshold with a DomainError; the code
performs no such validation.  With threshold = 0 it returns two shares
of the length-1 polynomial [secret] and an empty commitment list, and
with threshold = 2 > num_shares = 1 it returns a single share, in both
cases without any error. -/
theorem claim_generate_validation_failing :
    generate_shares_and_commitments 7 5 0 2 [] [] = ([(5, 0), (5, 0)], [], [5]) ∧
    generate_shares_and_commitments 7 5 2 1 [1] [2] = ([(6, 2)], [4, 4], [5, 1]) := by
  constructor
  · rfl
  · norm_num [generate_shares_and_commitments, generate_polynomial, List.range_succ,
      evaluate_polynomial_cons, evaluate_polynomial_nil, pow_mod_eq_of_one_lt, gGen, hGen]
    decide

/-- C1: the claim says every share produced by
generate_shares_and_commitments passes verify_share against the
commitments of the same call.  With p = 7, secret = 6, threshold = 2,
num_shares = 2 and random draws [6] (for f) and [0] (for g), the call
produces shares (5, 0) and (4, 0) and commitments [1, 1], and both
shares fail verification: polynomial evaluation reduces mod p while the
verification equation reduces exponents mod p - 1, so honestly derived
shares do not satisfy it. -/
theorem claim_verification_soundness_failing :
    generate_shares_and_commitments 7 6 2 2 [6] [0] = ([(5, 0), (4, 0)], [1, 1], [6, 6]) ∧
    verify_share 7 1 (5, 0) [1, 1] 2 = false ∧
    verify_share 7 2 (4, 0) [1, 1] 2 = false := by
  refine ⟨?_, ?_, ?_⟩
  · norm_num [generate_shares_and_commitments, generate_polynomial, List.range_succ,
      evaluate_polynomial_cons, evaluate_polynomial_nil, pow_mod_eq_of_one_lt, gGen, hGen]
    decide
  · norm_num [verify_share, List.range_succ, pow_mod_eq_of_one_lt, gGen, hGen]
    decide
  · norm_num [verify_share, List.range_succ, pow_mod_eq_of_one_lt, gGen, hGen]
    decide

end PedersenVSS

namespace CryptoWill

/-- C10: whenever fewer shares are revealed than the will's threshold,
CryptoWill.reconstruct_secret returns (False, 0) without raising any
error, for every digest function, instead of propagating the core's
insufficient-shares failure. -/
theorem claim_reconstruct_too_few (p : Int) (hashFn : Int → Int) (will : WillData)
    (revealed : List (Int × Int × Int)) (h : revealed.length < will.threshold) :
    reconstruct_secret p hashFn will revealed = .ok (false, 0) := by
  rw [reconstruct_secret, if_pos h]

theorem claim_reconstruct_too_few_witness :
    reconstruct_secret 7 (fun s => s) ⟨2, 0⟩ [(1, 5, 0)] = .ok (false, 0) :=
  claim_reconstruct_too_few 7 (fun s => s) ⟨2, 0⟩ [(1, 5, 0)] (by norm_num)

end CryptoWill
